import Mathlib

/-!
Verification of the stratified dataset splitter (`src/sampling.py`,
`stratified_splits`).

The embedding models the dataframe as a list of rows, rational numbers stand
for the Python floats, and the external collaborators are modelled through the
narrow interfaces the function uses: the clustering pipeline
(`StandardScaler` + `DBSCAN`) is an injected function from a group of rows to a
list of integer labels, and the random sampler is a deterministic
without-replacement drawing procedure driven by an explicit generator state
(Python's seeded `random` module). Fallible steps (the entry assertion on
line 35, `random.sample`'s population check, the dataframe column-length check,
and the completeness assertion on line 73) return `Except`.
-/

namespace NbSnippets

/-- One row of the input dataset: a stable index value, the class-label column
and the numeric stratification feature columns. `stratified_splits` never reads
`feats` itself; they are only handed to the external clustering collaborator. -/
structure Row where
  idx : Nat
  klass : Int
  feats : List Int
deriving DecidableEq

/-- Insert an integer into an ascending sorted list. -/
def insertSorted (x : Int) : List Int → List Int
  | [] => [x]
  | y :: ys => if x ≤ y then x :: y :: ys else y :: insertSorted x ys

/-- Insertion sort on integers; models the ascending key order in which pandas'
`groupby` yields its groups. -/
def sortInts (l : List Int) : List Int := l.foldr insertSorted []

/-- The sorted list of distinct key values appearing in `l`. -/
def sortedKeys (l : List Int) : List Int := sortInts l.dedup

/-- `groupby(key)` (lines 46 and 53): the groups in ascending key order, each
group keeping the original row order. -/
def groupByKey {α : Type} (key : α → Int) (xs : List α) : List (List α) :=
  (sortedKeys (xs.map key)).map fun k => xs.filter fun x => decide (key x = k)

/-- A linear congruential generator step: the deterministic source of
randomness standing for the seeded state of Python's `random` module. -/
def rngNext (s : Nat) : Nat := (1103515245 * s + 12345) % 2147483648

/-- Draw `k` elements without replacement: repeatedly pick a position from the
current generator value and remove the element at that position. -/
def sampleList : Nat → List Nat → Nat → List Nat × Nat
  | s, _, 0 => ([], s)
  | s, [], _ + 1 => ([], s)
  | s, p :: pop, k + 1 =>
    let i := s % (p :: pop).length
    let r := sampleList (rngNext s) ((p :: pop).eraseIdx i) k
    ((p :: pop).getD i p :: r.1, r.2)

def sampleErrMsg : String := "Sample larger than population or is negative"

/-- `random.sample(population, k)` (line 66): raises when `k` is negative or
exceeds the population size, otherwise draws `k` distinct elements. -/
def sampleE (s : Nat) (pop : List Nat) (k : Int) : Except String (List Nat × Nat) :=
  if k < 0 ∨ (pop.length : Int) < k then .error sampleErrMsg
  else .ok (sampleList s pop k.toNat)

/-- Lines 58–61: enumerate the raw counts and round each one up when its
split's running share is strictly below its target percentage, down otherwise.
`idx` is the enumeration index. -/
def correctedCounts (ps : List ℚ) (splits : List (List Nat)) (total : Nat) :
    Nat → List ℚ → List Int
  | _, [] => []
  | idx, c :: cs =>
    (if ((splits.getD idx []).length : ℚ) / (total : ℚ) < ps.getD idx 0
      then ⌈c⌉ else ⌊c⌋)
      :: correctedCounts ps splits total (idx + 1) cs

/-- Lines 56–63: the requested per-stratum counts for the non-remainder splits
of a stratum of size `X`, given the accumulators and cumulative total so far. -/
def computeCounts (ps : List ℚ) (X : Nat) (splits : List (List Nat)) (total : Nat) :
    List Int :=
  let raw := ps.dropLast.map fun s => s * (X : ℚ)
  if 0 < total then correctedCounts ps splits total 0 raw
  else raw.map fun c => ⌊c⌋

/-- Lines 65–68: in increasing split order, each non-remainder split draws
`min(len(indices), c)` indices, and the drawn indices are filtered out of the
pool before the next split draws. Returns the per-split chosen lists, the final
remaining pool and the final generator state. -/
def drawAll : Nat → List Nat → List Int → Except String (List (List Nat) × List Nat × Nat)
  | rng, indices, [] => .ok ([], indices, rng)
  | rng, indices, c :: cs =>
    match sampleE rng indices (min (indices.length : Int) c) with
    | .error e => .error e
    | .ok (chosen, rng') =>
      match drawAll rng' (indices.filter fun i => decide (i ∉ chosen)) cs with
      | .error e => .error e
      | .ok (news, rem, rng2) => .ok (chosen :: news, rem, rng2)

/-- Line 67: `splits[idx].extend(chosen_idx)` for each enumerated count. -/
def extendFirst : List (List Nat) → List (List Nat) → List (List Nat)
  | splits, [] => splits
  | [], _ :: _ => []
  | s :: splits, n :: news => (s ++ n) :: extendFirst splits news

/-- Line 69: `splits[-1].extend(indices)`. On every reachable call the
accumulator list is nonempty (the entry assertion rules out empty
`split_percentages`, whose sum is 0); on `[]` we return `[]`. -/
def extendLast : List (List Nat) → List Nat → List (List Nat)
  | [], _ => []
  | [s], rem => [s ++ rem]
  | s :: s2 :: splits, rem => s :: extendLast (s2 :: splits) rem

/-- The orchestrator's mutable state: the per-split accumulators, the
cumulative count of processed records and the random generator state. -/
structure LoopState where
  splits : List (List Nat)
  total : Nat
  rng : Nat
deriving DecidableEq

/-- Lines 54–71 for one stratum: compute the corrected counts, draw for every
non-remainder split, give the rest to the last split, bump the total. -/
def processStratum (ps : List ℚ) (st : LoopState) (indices : List Nat) :
    Except String LoopState :=
  match drawAll st.rng indices (computeCounts ps indices.length st.splits st.total) with
  | .error e => .error e
  | .ok (news, rem, rng') =>
    .ok ⟨extendLast (extendFirst st.splits news) rem, st.total + indices.length, rng'⟩

/-- The loop over all strata in processing order. -/
def runStrata (ps : List ℚ) : LoopState → List (List Nat) → Except String LoopState
  | st, [] => .ok st
  | st, s :: rest =>
    match processStratum ps st s with
    | .error e => .error e
    | .ok st' => runStrata ps st' rest

def lengthErrMsg : String := "Length of values does not match length of index"

/-- Lines 47–54 for one class group: attach the per-row sub-cluster labels
(`cluster` stands for the external `StandardScaler` + `DBSCAN` pipeline of
lines 48–49; without stratification columns every row gets label 0, line 51),
then group by label. Writing a label column whose length differs from the group
fails, as the dataframe column assignment would. -/
def classStrata (stratifyGiven : Bool) (cluster : List Row → List Int) (g : List Row) :
    Except String (List (List Nat)) :=
  let labels := if stratifyGiven then cluster g else List.replicate g.length 0
  if labels.length = g.length then
    .ok ((groupByKey Prod.snd (g.zip labels)).map fun sub => sub.map fun p => p.1.idx)
  else .error lengthErrMsg

/-- Lines 46–54 over all class groups: the strata (index lists) in processing
order. Clustering consumes no sampler state, so computing every stratum before
any sampling leaves the overall behaviour unchanged. -/
def strataOf (stratifyGiven : Bool) (cluster : List Row → List Int) :
    List (List Row) → Except String (List (List Nat))
  | [] => .ok []
  | g :: gs =>
    match classStrata stratifyGiven cluster g with
    | .error e => .error e
    | .ok s =>
      match strataOf stratifyGiven cluster gs with
      | .error e => .error e
      | .ok rest => .ok (s ++ rest)

def entryMsg : String := "All splits combined should be 100% of the data"

def finalMsg : String := "All elements should be chosen"

/-- The body after the entry assertion and the working copy: group the working
dataframe into strata, run the allocation loop, and validate the completeness
assertion of line 73 before returning the accumulators. -/
def splitCore (ps : List ℚ) (stratifyGiven : Bool) (cluster : List Row → List Int)
    (rng : Nat) (df2 : List Row) : Except String (List (List Nat)) :=
  match strataOf stratifyGiven cluster (groupByKey Row.klass df2) with
  | .error e => .error e
  | .ok strataL =>
    match runStrata ps ⟨List.replicate ps.length [], 0, rng⟩ strataL with
    | .error e => .error e
    | .ok st =>
      if (st.splits.map List.length).sum = df2.length then .ok st.splits
      else .error finalMsg

/-- `stratified_splits(df, split_percentages, class_column, stratify_columns)`.
`classGiven` and `stratifyGiven` record whether the optional column arguments
were supplied. When no class column is given, a constant synthetic class is
attached to the working copy (lines 39–41), i.e. every row's class becomes 0.
The entry assertion of line 35 compares the percentage sum with 1 exactly. -/
def stratified_splits (df : List Row) (ps : List ℚ) (classGiven stratifyGiven : Bool)
    (cluster : List Row → List Int) (rng : Nat) : Except String (List (List Nat)) :=
  if ps.sum = 1 then
    splitCore ps stratifyGiven cluster rng
      (if classGiven then df else df.map fun r => { r with klass := 0 })
  else .error entryMsg

/-- The caller-visible state around one invocation: the caller's dataframe and
the callee's working dataframe. Line 36 (`df = df.copy()`) makes `work` an
independent copy; the synthetic class column of line 41 and every later write
(including the per-group stratum column of lines 49/51, written to group views
derived from the copy) target `work`, never `caller`. -/
structure CallState where
  caller : List Row
  work : List Row

/-- One full invocation as seen from the outside: the final caller-visible
state paired with the returned value. The entry assertion fires before the
copy is taken. -/
def stratified_splitsRun (df : List Row) (ps : List ℚ) (classGiven stratifyGiven : Bool)
    (cluster : List Row → List Int) (rng : Nat) :
    CallState × Except String (List (List Nat)) :=
  if ps.sum = 1 then
    let s0 : CallState := ⟨df, df⟩
    let s1 := if classGiven then s0
      else { s0 with work := s0.work.map fun r => { r with klass := 0 } }
    (s1, splitCore ps stratifyGiven cluster rng s1.work)
  else (⟨df, df⟩, .error entryMsg)

/-- A degenerate clustering collaborator: every row of the group gets the same
sub-cluster label, as a `DBSCAN` run that puts the whole group in one cluster
would produce. -/
def clusterConst : List Row → List Int := fun g => List.replicate g.length 0

/-- A clustering collaborator that separates rows with index below 5 from the
rest, as a `DBSCAN` run finding one dense cluster plus noise points would. -/
def clusterBelow5 : List Row → List Int :=
  fun g => g.map fun r => if r.idx < 5 then 0 else 1

/-- A small concrete dataset: `n` rows with indices `0, …, n-1`, one class. -/
def mkdf (n : Nat) : List Row := (List.range n).map fun i => ⟨i, 0, []⟩

/-! ### Sorting and grouping lemmas -/

theorem insertSorted_perm (x : Int) (l : List Int) :
    List.Perm (insertSorted x l) (x :: l) := by
  induction l with
  | nil => simp [insertSorted]
  | cons y ys ih =>
    simp only [insertSorted]
    by_cases h : x ≤ y
    · simp [h]
    · rw [if_neg h]
      exact (ih.cons y).trans (List.Perm.swap x y ys)

theorem sortInts_perm (l : List Int) : List.Perm (sortInts l) l := by
  induction l with
  | nil => exact List.Perm.refl _
  | cons x xs ih => exact (insertSorted_perm x (sortInts xs)).trans (ih.cons x)

theorem sortedKeys_perm_dedup (l : List Int) : List.Perm (sortedKeys l) l.dedup :=
  sortInts_perm l.dedup

theorem sortedKeys_nodup (l : List Int) : (sortedKeys l).Nodup :=
  (sortedKeys_perm_dedup l).nodup_iff.2 (List.nodup_dedup l)

theorem mem_sortedKeys {a : Int} {l : List Int} : a ∈ sortedKeys l ↔ a ∈ l :=
  ((sortedKeys_perm_dedup l).mem_iff).trans List.mem_dedup

theorem flatten_filter_perm {α : Type} (key : α → Int) :
    ∀ (ks : List Int) (xs : List α), ks.Nodup → (∀ x ∈ xs, key x ∈ ks) →
      List.Perm ((ks.map fun k => xs.filter fun x => decide (key x = k)).flatten) xs := by
  intro ks
  induction ks with
  | nil =>
    intro xs _ hall
    have hxs : xs = [] := List.eq_nil_iff_forall_not_mem.2 fun x hx => by
      simpa using hall x hx
    simp [hxs]
  | cons k ks ih =>
    intro xs hnd hall
    have hknotin : k ∉ ks := (List.nodup_cons.1 hnd).1
    have hmap : ∀ k' ∈ ks, xs.filter (fun x => decide (key x = k'))
        = (xs.filter fun x => decide (key x ≠ k)).filter fun x => decide (key x = k') := by
      intro k' hk'
      rw [List.filter_filter]
      refine (List.filter_congr ?_)
      intro a _
      by_cases h : key a = k'
      · have hne : key a ≠ k := by
          rw [h]; intro hkk; exact hknotin (hkk ▸ hk')
        have hne2 : ¬k' = k := h ▸ hne
        simp [h, hne, hne2]
      · simp [h]
    have hrest : List.Perm
        ((ks.map fun k' => xs.filter fun x => decide (key x = k')).flatten)
        (xs.filter fun x => decide (key x ≠ k)) := by
      rw [List.map_congr_left hmap]
      refine ih _ (List.nodup_cons.1 hnd).2 ?_
      intro x hx
      have hmem : x ∈ xs := List.mem_of_mem_filter hx
      have hne : key x ≠ k := by simpa using List.of_mem_filter hx
      rcases List.mem_cons.1 (hall x hmem) with h | h
      · exact absurd h hne
      · exact h
    have h1 : List.Perm
        (((k :: ks).map fun k' => xs.filter fun x => decide (key x = k')).flatten)
        ((xs.filter fun x => decide (key x = k)) ++ xs.filter fun x => decide (key x ≠ k)) := by
      simp only [List.map_cons, List.flatten_cons]
      exact List.Perm.append_left _ hrest
    have hpred : (fun x => decide (key x ≠ k)) = fun x : α => !decide (key x = k) := by
      funext a; simp [decide_not]
    have h2 : List.Perm
        ((xs.filter fun x => decide (key x = k)) ++ xs.filter fun x => decide (key x ≠ k))
        xs := by
      rw [hpred]
      exact List.filter_append_perm _ xs
    exact h1.trans h2

theorem groupByKey_flatten_perm {α : Type} (key : α → Int) (xs : List α) :
    List.Perm (groupByKey key xs).flatten xs :=
  flatten_filter_perm key _ xs (sortedKeys_nodup _)
    (fun _ hx => mem_sortedKeys.2 (List.mem_map_of_mem key hx))

theorem groupByKey_sublist {α : Type} (key : α → Int) (xs : List α) :
    ∀ g ∈ groupByKey key xs, List.Sublist g xs := by
  intro g hg
  rcases List.mem_map.1 hg with ⟨k, _, rfl⟩
  exact List.filter_sublist xs

/-! ### Sampling lemmas -/

theorem get_cons_eraseIdx_perm {α : Type} :
    ∀ (l : List α) (i : Nat), i < l.length → ∀ d : α,
      List.Perm (l.getD i d :: l.eraseIdx i) l := by
  intro l
  induction l with
  | nil => intro i h; simp at h
  | cons x xs ih =>
    intro i h d
    cases i with
    | zero => simp
    | succ n =>
      have hn : n < xs.length := by simpa using h
      simp only [List.getD_cons_succ, List.eraseIdx_cons_succ]
      exact (List.Perm.swap x (xs.getD n d) (xs.eraseIdx n)).trans ((ih n hn d).cons x)

theorem sampleList_length :
    ∀ (k : Nat) (s : Nat) (pop : List Nat), k ≤ pop.length →
      (sampleList s pop k).1.length = k := by
  intro k
  induction k with
  | zero => intro s pop _; cases pop <;> rfl
  | succ n ih =>
    intro s pop hk
    match pop with
    | [] => simp at hk
    | p :: pop' =>
      have hi : s % (pop'.length + 1) < (p :: pop').length := by
        simpa using Nat.mod_lt s (Nat.succ_pos pop'.length)
      have hrest : ((p :: pop').eraseIdx (s % (pop'.length + 1))).length
          = pop'.length := by
        rw [List.length_eraseIdx, if_pos hi]; simp
      simp only [sampleList, List.length_cons]
      rw [ih (rngNext s) _ (by rw [hrest]; simpa using hk)]

theorem sampleList_subset :
    ∀ (k : Nat) (s : Nat) (pop : List Nat) (x : Nat),
      x ∈ (sampleList s pop k).1 → x ∈ pop := by
  intro k
  induction k with
  | zero => intro s pop x hx; simp [sampleList] at hx
  | succ n ih =>
    intro s pop x hx
    match pop with
    | [] => simp [sampleList] at hx
    | p :: pop' =>
      have hpos : 0 < (p :: pop').length := by simp
      have hi : s % (p :: pop').length < (p :: pop').length := Nat.mod_lt _ hpos
      simp only [sampleList, List.mem_cons] at hx
      rcases hx with rfl | hx
      · exact ((get_cons_eraseIdx_perm _ _ hi p).mem_iff).1 (List.mem_cons_self _ _)
      · exact (List.eraseIdx_sublist _ _).subset (ih _ _ _ hx)

theorem sampleList_nodup :
    ∀ (k : Nat) (s : Nat) (pop : List Nat), pop.Nodup →
      (sampleList s pop k).1.Nodup := by
  intro k
  induction k with
  | zero => intro s pop _; simp [sampleList]
  | succ n ih =>
    intro s pop hnd
    match pop with
    | [] => simp [sampleList]
    | p :: pop' =>
      have hpos : 0 < (p :: pop').length := by simp
      have hi : s % (p :: pop').length < (p :: pop').length := Nat.mod_lt _ hpos
      have hperm := get_cons_eraseIdx_perm (p :: pop') _ hi p
      have hnd2 : ((p :: pop').getD (s % (p :: pop').length) p
          :: (p :: pop').eraseIdx (s % (p :: pop').length)).Nodup :=
        hperm.nodup_iff.2 hnd
      have hx : (p :: pop').getD (s % (p :: pop').length) p
          ∉ (p :: pop').eraseIdx (s % (p :: pop').length) := (List.nodup_cons.1 hnd2).1
      simp only [sampleList, List.nodup_cons]
      refine ⟨fun hmem => hx (sampleList_subset n _ _ _ hmem), ih _ _ (List.nodup_cons.1 hnd2).2⟩

theorem sampleE_ok {s : Nat} {pop : List Nat} {k : Int} (h0 : 0 ≤ k)
    (hle : k ≤ (pop.length : Int)) :
    sampleE s pop k = .ok (sampleList s pop k.toNat) := by
  rw [sampleE, if_neg]
  push_neg
  exact ⟨by omega, by omega⟩

theorem filter_not_mem_perm {pop chosen : List Nat} (hnd : pop.Nodup)
    (hcnd : chosen.Nodup) (hsub : ∀ x ∈ chosen, x ∈ pop) :
    List.Perm (chosen ++ pop.filter fun i => decide (i ∉ chosen)) pop := by
  have h1 : List.Perm (pop.filter fun i => decide (i ∈ chosen)) chosen := by
    refine (List.perm_ext_iff_of_nodup (hnd.filter _) hcnd).2 ?_
    intro a
    simp only [List.mem_filter, decide_eq_true_eq]
    exact ⟨fun h => h.2, fun h => ⟨hsub a h, h⟩⟩
  have h2 := List.filter_append_perm (fun i => decide (i ∈ chosen)) pop
  have hpred : (fun i : Nat => !decide (i ∈ chosen)) = fun i => decide (i ∉ chosen) := by
    funext a; simp [decide_not]
  rw [hpred] at h2
  exact (h1.symm.append_right _).trans h2

/-! ### Allocation lemmas -/

theorem drawAll_spec :
    ∀ (counts : List Int) (rng : Nat) (indices : List Nat), indices.Nodup →
      (∀ c ∈ counts, 0 ≤ c) →
      ∃ news rem rng', drawAll rng indices counts = .ok (news, rem, rng') ∧
        news.length = counts.length ∧
        List.Perm (news.flatten ++ rem) indices ∧
        ∀ i, i < counts.length →
          (news.getD i []).length
            = min ((indices.diff (news.take i).flatten).length) ((counts.getD i 0).toNat) := by
  intro counts
  induction counts with
  | nil =>
    intro rng indices _ _
    exact ⟨[], indices, rng, rfl, rfl, by simp, fun i hi => by simp at hi⟩
  | cons c cs ih =>
    intro rng indices hnd hcpos
    have hc : 0 ≤ c := hcpos c (List.mem_cons_self _ _)
    have hk0 : 0 ≤ min (indices.length : Int) c :=
      le_min (Int.natCast_nonneg _) hc
    have hkle : min (indices.length : Int) c ≤ (indices.length : Int) := min_le_left _ _
    have hsampE : sampleE rng indices (min (indices.length : Int) c)
        = .ok (sampleList rng indices (min (indices.length : Int) c).toNat) :=
      sampleE_ok hk0 hkle
    set k := (min (indices.length : Int) c).toNat with hkdef
    set chosen := (sampleList rng indices k).1 with hchdef
    have hchsub : ∀ x ∈ chosen, x ∈ indices :=
      fun x hx => sampleList_subset k rng indices x hx
    have hchnd : chosen.Nodup := sampleList_nodup k rng indices hnd
    have hklen : k ≤ indices.length := by omega
    have hchlen : chosen.length = k := sampleList_length k rng indices hklen
    set pool := indices.filter fun i => decide (i ∉ chosen) with hpooldef
    have hpoolnd : pool.Nodup := hnd.filter _
    obtain ⟨news, rem, rng', heq, hlen, hperm, hmin⟩ :=
      ih (sampleList rng indices k).2 pool hpoolnd
        (fun c' hc' => hcpos c' (List.mem_cons_of_mem _ hc'))
    have hpoolperm : List.Perm (chosen ++ pool) indices :=
      filter_not_mem_perm hnd hchnd hchsub
    have hdiff : indices.diff chosen = pool := List.Nodup.diff_eq_filter hnd
    refine ⟨chosen :: news, rem, rng', ?_, by simp [hlen], ?_, ?_⟩
    · simp only [drawAll, hsampE, heq]
    · simp only [List.flatten_cons, List.append_assoc]
      exact (List.Perm.append_left chosen hperm).trans hpoolperm
    · intro i hi
      cases i with
      | zero =>
        simp only [List.getD_cons_zero, List.take_zero, List.flatten_nil, List.diff_nil]
        rw [hchlen]
        omega
      | succ n =>
        have hn : n < cs.length := by simpa using hi
        simp only [List.getD_cons_succ, List.take_succ_cons, List.flatten_cons,
          List.diff_append, hdiff]
        exact hmin n hn

theorem extendFirst_length :
    ∀ (news splits : List (List Nat)), news.length ≤ splits.length →
      (extendFirst splits news).length = splits.length := by
  intro news
  induction news with
  | nil => intro splits _; cases splits <;> rfl
  | cons n ns ih =>
    intro splits h
    cases splits with
    | nil => simp at h
    | cons s ss =>
      simp only [extendFirst, List.length_cons]
      rw [ih ss (by simpa using h)]

theorem extendFirst_flatten_perm :
    ∀ (news splits : List (List Nat)), news.length ≤ splits.length →
      List.Perm (extendFirst splits news).flatten (splits.flatten ++ news.flatten) := by
  intro news
  induction news with
  | nil => intro splits _; cases splits <;> simp [extendFirst]
  | cons n ns ih =>
    intro splits h
    cases splits with
    | nil => simp at h
    | cons s ss =>
      simp only [extendFirst, List.flatten_cons, List.append_assoc]
      refine List.Perm.append_left s ?_
      have hih := ih ss (by simpa using h)
      refine (List.Perm.append_left n hih).trans ?_
      have h1 : List.Perm (n ++ (ss.flatten ++ ns.flatten))
          ((n ++ ss.flatten) ++ ns.flatten) := by rw [List.append_assoc]
      have h2 : List.Perm ((n ++ ss.flatten) ++ ns.flatten)
          ((ss.flatten ++ n) ++ ns.flatten) :=
        List.Perm.append_right _ List.perm_append_comm
      have h3 : List.Perm ((ss.flatten ++ n) ++ ns.flatten)
          (ss.flatten ++ (n ++ ns.flatten)) := by rw [List.append_assoc]
      exact (h1.trans h2).trans h3

theorem extendLast_length :
    ∀ (splits : List (List Nat)) (rem : List Nat),
      (extendLast splits rem).length = splits.length := by
  intro splits
  induction splits with
  | nil => intro rem; rfl
  | cons s ss ih =>
    intro rem
    cases ss with
    | nil => rfl
    | cons s2 ss2 =>
      simp only [extendLast, List.length_cons]
      rw [ih rem]
      simp

theorem extendLast_flatten_perm :
    ∀ (splits : List (List Nat)) (rem : List Nat), splits ≠ [] →
      List.Perm (extendLast splits rem).flatten (splits.flatten ++ rem) := by
  intro splits
  induction splits with
  | nil => intro rem h; exact absurd rfl h
  | cons s ss ih =>
    intro rem _
    cases ss with
    | nil => simp [extendLast]
    | cons s2 ss2 =>
      simp only [extendLast, List.flatten_cons, List.append_assoc]
      refine List.Perm.append_left s ?_
      simpa [List.append_assoc] using ih rem (by simp)

theorem extendFirst_replicate :
    ∀ (news : List (List Nat)) (n : Nat), news.length ≤ n →
      extendFirst (List.replicate n []) news
        = news ++ List.replicate (n - news.length) ([] : List Nat) := by
  intro news
  induction news with
  | nil => intro n _; cases n <;> rfl
  | cons x xs ih =>
    intro n h
    cases n with
    | zero => simp at h
    | succ m =>
      simp only [List.replicate_succ, extendFirst, List.nil_append, List.cons_append,
        List.length_cons]
      rw [ih m (by simpa using h)]
      simp [Nat.succ_sub_succ]

theorem extendLast_append_singleton :
    ∀ (xs : List (List Nat)) (l rem : List Nat),
      extendLast (xs ++ [l]) rem = xs ++ [l ++ rem] := by
  intro xs
  induction xs with
  | nil => intro l rem; rfl
  | cons x xs ih =>
    intro l rem
    cases xs with
    | nil => rfl
    | cons y ys =>
      have hstep : extendLast ((x :: y :: ys) ++ [l]) rem
          = x :: extendLast ((y :: ys) ++ [l]) rem := rfl
      rw [hstep, ih l rem]
      rfl

/-! ### Count-computation lemmas -/

theorem correctedCounts_length (ps : List ℚ) (splits : List (List Nat)) (total : Nat) :
    ∀ (cs : List ℚ) (idx : Nat),
      (correctedCounts ps splits total idx cs).length = cs.length := by
  intro cs
  induction cs with
  | nil => intro idx; rfl
  | cons c cs ih => intro idx; simp only [correctedCounts, List.length_cons]; rw [ih]

theorem correctedCounts_getD (ps : List ℚ) (splits : List (List Nat)) (total : Nat) :
    ∀ (cs : List ℚ) (idx i : Nat), i < cs.length →
      (correctedCounts ps splits total idx cs).getD i 0
        = if ((splits.getD (idx + i) []).length : ℚ) / (total : ℚ) < ps.getD (idx + i) 0
          then ⌈cs.getD i 0⌉ else ⌊cs.getD i 0⌋ := by
  intro cs
  induction cs with
  | nil => intro idx i h; simp at h
  | cons c cs ih =>
    intro idx i h
    cases i with
    | zero => simp [correctedCounts]
    | succ n =>
      have hrec := ih (idx + 1) n (by simpa using h)
      simp only [correctedCounts, List.getD_cons_succ]
      rw [hrec]
      have harith : idx + 1 + n = idx + (n + 1) := by omega
      rw [harith]

theorem correctedCounts_mem (ps : List ℚ) (splits : List (List Nat)) (total : Nat) :
    ∀ (cs : List ℚ) (idx : Nat) (c' : Int),
      c' ∈ correctedCounts ps splits total idx cs →
      ∃ c ∈ cs, c' = ⌈c⌉ ∨ c' = ⌊c⌋ := by
  intro cs
  induction cs with
  | nil => intro idx c' h; simp [correctedCounts] at h
  | cons c cs ih =>
    intro idx c' h
    simp only [correctedCounts, List.mem_cons] at h
    rcases h with h | h
    · refine ⟨c, List.mem_cons_self _ _, ?_⟩
      by_cases hc : ((splits.getD idx []).length : ℚ) / (total : ℚ) < ps.getD idx 0
      · left; rw [h, if_pos hc]
      · right; rw [h, if_neg hc]
    · obtain ⟨c0, hc0, hor⟩ := ih (idx + 1) c' h
      exact ⟨c0, List.mem_cons_of_mem _ hc0, hor⟩

theorem computeCounts_length (ps : List ℚ) (X : Nat) (splits : List (List Nat))
    (total : Nat) : (computeCounts ps X splits total).length = ps.length - 1 := by
  rw [computeCounts]
  by_cases h : 0 < total
  · rw [if_pos h, correctedCounts_length]
    simp [List.length_dropLast]
  · rw [if_neg h]
    simp [List.length_dropLast]

theorem computeCounts_nonneg (ps : List ℚ) (X : Nat) (splits : List (List Nat))
    (total : Nat) (hps : ∀ p ∈ ps, 0 ≤ p) :
    ∀ c ∈ computeCounts ps X splits total, 0 ≤ c := by
  intro c hc
  have hraw : ∀ q ∈ ps.dropLast.map fun s => s * (X : ℚ), 0 ≤ q := by
    intro q hq
    obtain ⟨p, hp, rfl⟩ := List.mem_map.1 hq
    have : p ∈ ps := (List.dropLast_sublist ps).subset hp
    exact mul_nonneg (hps p this) (Nat.cast_nonneg X)
  rw [computeCounts] at hc
  by_cases h : 0 < total
  · rw [if_pos h] at hc
    obtain ⟨q, hq, hor⟩ := correctedCounts_mem ps splits total _ 0 c hc
    rcases hor with rfl | rfl
    · exact Int.ceil_nonneg (hraw q hq)
    · exact Int.floor_nonneg.2 (hraw q hq)
  · rw [if_neg h] at hc
    obtain ⟨q, hq, rfl⟩ := List.mem_map.1 hc
    exact Int.floor_nonneg.2 (hraw q hq)

/-! ### Loop lemmas -/

theorem processStratum_spec (ps : List ℚ) (st : LoopState) (indices : List Nat)
    (hlen : st.splits.length = ps.length) (hpos : 0 < ps.length)
    (hnd : indices.Nodup) (hps : ∀ p ∈ ps, 0 ≤ p) :
    ∃ st', processStratum ps st indices = .ok st' ∧
      st'.splits.length = ps.length ∧
      st'.total = st.total + indices.length ∧
      List.Perm st'.splits.flatten (st.splits.flatten ++ indices) := by
  obtain ⟨news, rem, rng', heq, hnlen, hperm, _⟩ :=
    drawAll_spec (computeCounts ps indices.length st.splits st.total) st.rng indices hnd
      (computeCounts_nonneg _ _ _ _ hps)
  have hnews_len : news.length ≤ st.splits.length := by
    rw [hnlen, computeCounts_length, hlen]; omega
  refine ⟨⟨extendLast (extendFirst st.splits news) rem, st.total + indices.length, rng'⟩,
    ?_, ?_, rfl, ?_⟩
  · simp only [processStratum, heq]
  · show (extendLast (extendFirst st.splits news) rem).length = ps.length
    rw [extendLast_length, extendFirst_length news _ hnews_len, hlen]
  · show List.Perm (extendLast (extendFirst st.splits news) rem).flatten
      (st.splits.flatten ++ indices)
    have hne : extendFirst st.splits news ≠ [] := by
      have hl := extendFirst_length news st.splits hnews_len
      intro hcon
      rw [hcon] at hl
      simp only [List.length_nil] at hl
      omega
    have h1 := extendLast_flatten_perm (extendFirst st.splits news) rem hne
    have h2 := extendFirst_flatten_perm news st.splits hnews_len
    refine h1.trans ((List.Perm.append_right rem h2).trans ?_)
    rw [List.append_assoc]
    exact List.Perm.append_left _ hperm

theorem runStrata_spec (ps : List ℚ) (hpos : 0 < ps.length) (hps : ∀ p ∈ ps, 0 ≤ p) :
    ∀ (strataL : List (List Nat)) (st : LoopState),
      st.splits.length = ps.length → (∀ s ∈ strataL, s.Nodup) →
      ∃ st', runStrata ps st strataL = .ok st' ∧
        st'.splits.length = ps.length ∧
        st'.total = st.total + strataL.flatten.length ∧
        List.Perm st'.splits.flatten (st.splits.flatten ++ strataL.flatten) := by
  intro strataL
  induction strataL with
  | nil => intro st hlen _; exact ⟨st, rfl, hlen, by simp, by simp⟩
  | cons s rest ih =>
    intro st hlen hnd
    obtain ⟨st1, heq1, hlen1, htot1, hperm1⟩ :=
      processStratum_spec ps st s hlen hpos (hnd s (List.mem_cons_self _ _)) hps
    obtain ⟨st2, heq2, hlen2, htot2, hperm2⟩ :=
      ih st1 hlen1 (fun t ht => hnd t (List.mem_cons_of_mem _ ht))
    refine ⟨st2, ?_, hlen2, ?_, ?_⟩
    · simp only [runStrata, heq1]
      exact heq2
    · rw [htot2, htot1]
      simp only [List.flatten_cons, List.length_append]
      omega
    · refine hperm2.trans ((List.Perm.append_right _ hperm1).trans ?_)
      simp only [List.flatten_cons, List.append_assoc]
      exact List.Perm.refl _

/-! ### Strata-construction lemmas -/

theorem classStrata_spec (sg : Bool) (cluster : List Row → List Int) (g : List Row)
    (hcl : ∀ g', (cluster g').length = g'.length) :
    ∃ L, classStrata sg cluster g = .ok L ∧
      List.Perm L.flatten (g.map Row.idx) ∧
      ∀ s ∈ L, List.Sublist s (g.map Row.idx) := by
  have hlen : (if sg then cluster g else List.replicate g.length 0).length = g.length := by
    cases sg <;> simp [hcl]
  have heq : classStrata sg cluster g
      = .ok ((groupByKey Prod.snd
          (g.zip (if sg then cluster g else List.replicate g.length 0))).map
            fun sub => sub.map fun p => p.1.idx) := by
    simp only [classStrata]
    rw [if_pos hlen]
  set labels := if sg then cluster g else List.replicate g.length 0 with hldef
  have hmapeq : (g.zip labels).map (fun p : Row × Int => p.1.idx) = g.map Row.idx := by
    have h1 : (g.zip labels).map (fun p : Row × Int => p.1.idx)
        = ((g.zip labels).map Prod.fst).map Row.idx := by
      rw [List.map_map]
      rfl
    rw [h1, List.map_fst_zip g labels (by rw [hlen])]
  refine ⟨_, heq, ?_, ?_⟩
  · have hjperm : List.Perm (groupByKey Prod.snd (g.zip labels)).flatten (g.zip labels) :=
      groupByKey_flatten_perm _ _
    have hflat : ((groupByKey Prod.snd (g.zip labels)).map
        fun sub => sub.map fun p => p.1.idx).flatten
        = ((groupByKey Prod.snd (g.zip labels)).flatten).map fun p => p.1.idx := by
      rw [List.map_flatten]
    rw [hflat, ← hmapeq]
    exact hjperm.map _
  · intro s hs
    obtain ⟨sub, hsubmem, rfl⟩ := List.mem_map.1 hs
    have hsub : List.Sublist sub (g.zip labels) := groupByKey_sublist _ _ sub hsubmem
    have := hsub.map fun p : Row × Int => p.1.idx
    rw [hmapeq] at this
    exact this

theorem strataOf_spec (sg : Bool) (cluster : List Row → List Int)
    (hcl : ∀ g', (cluster g').length = g'.length) :
    ∀ groups : List (List Row),
      ∃ L, strataOf sg cluster groups = .ok L ∧
        List.Perm L.flatten ((groups.flatten).map Row.idx) ∧
        ∀ s ∈ L, ∃ g ∈ groups, List.Sublist s (g.map Row.idx) := by
  intro groups
  induction groups with
  | nil => exact ⟨[], rfl, by simp, by simp⟩
  | cons g gs ih =>
    obtain ⟨L1, heq1, hperm1, hsub1⟩ := classStrata_spec sg cluster g hcl
    obtain ⟨L2, heq2, hperm2, hsub2⟩ := ih
    refine ⟨L1 ++ L2, ?_, ?_, ?_⟩
    · simp only [strataOf, heq1, heq2]
    · simp only [List.flatten_append, List.flatten_cons, List.map_append]
      exact hperm1.append hperm2
    · intro s hs
      rcases List.mem_append.1 hs with h | h
      · exact ⟨g, List.mem_cons_self _ _, hsub1 s h⟩
      · obtain ⟨g', hg', hsub⟩ := hsub2 s h
        exact ⟨g', List.mem_cons_of_mem _ hg', hsub⟩

/-! ### Top-level success lemma -/

theorem splitCore_spec (ps : List ℚ) (sg : Bool) (cluster : List Row → List Int)
    (rng : Nat) (df2 : List Row) (hpos : 0 < ps.length) (hps : ∀ p ∈ ps, 0 ≤ p)
    (hnd : (df2.map Row.idx).Nodup) (hcl : ∀ g', (cluster g').length = g'.length) :
    ∃ splits, splitCore ps sg cluster rng df2 = .ok splits ∧
      splits.length = ps.length ∧
      List.Perm splits.flatten (df2.map Row.idx) := by
  obtain ⟨L, heqL, hpermL, hsubL⟩ := strataOf_spec sg cluster hcl (groupByKey Row.klass df2)
  have hgperm : List.Perm (groupByKey Row.klass df2).flatten df2 :=
    groupByKey_flatten_perm _ _
  have hpermL2 : List.Perm L.flatten (df2.map Row.idx) :=
    hpermL.trans (hgperm.map Row.idx)
  have hLnd : ∀ s ∈ L, s.Nodup := by
    intro s hs
    obtain ⟨g, hg, hsub⟩ := hsubL s hs
    have hgsub : List.Sublist (g.map Row.idx) (df2.map Row.idx) :=
      (groupByKey_sublist _ _ g hg).map _
    exact hnd.sublist (hsub.trans hgsub)
  obtain ⟨st, heqR, hlenR, _, hpermR⟩ :=
    runStrata_spec ps hpos hps L ⟨List.replicate ps.length [], 0, rng⟩ (by simp) hLnd
  have hflat : List.Perm st.splits.flatten (df2.map Row.idx) := by
    refine (hpermR.trans ?_).trans hpermL2
    simp
  refine ⟨st.splits, ?_, hlenR, hflat⟩
  simp only [splitCore, heqL, heqR]
  rw [if_pos]
  rw [← List.length_flatten, hflat.length_eq, List.length_map]

theorem stratified_splits_ok (df : List Row) (ps : List ℚ) (cg sg : Bool)
    (cluster : List Row → List Int) (rng : Nat)
    (hsum : ps.sum = 1) (hps : ∀ p ∈ ps, 0 ≤ p)
    (hnd : (df.map Row.idx).Nodup) (hcl : ∀ g', (cluster g').length = g'.length) :
    ∃ splits, stratified_splits df ps cg sg cluster rng = .ok splits ∧
      splits.length = ps.length ∧
      List.Perm splits.flatten (df.map Row.idx) := by
  have hpos : 0 < ps.length := by
    rcases ps with _ | ⟨p, ps'⟩
    · norm_num at hsum
    · simp
  set df2 := if cg then df else df.map fun r => { r with klass := 0 } with hdf2
  have hidx : df2.map Row.idx = df.map Row.idx := by
    rw [hdf2]
    cases cg
    · simp [List.map_map]
    · simp
  have hnd2 : (df2.map Row.idx).Nodup := by rw [hidx]; exact hnd
  obtain ⟨splits, heq, hlen, hperm⟩ := splitCore_spec ps sg cluster rng df2 hpos hps hnd2 hcl
  refine ⟨splits, ?_, hlen, by rw [← hidx]; exact hperm⟩
  rw [stratified_splits, if_pos hsum, ← hdf2]
  exact heq

/-! ### Indexing and constant-key helpers -/

theorem getD_map_of_lt {α β : Type} (f : α → β) :
    ∀ (l : List α) (i : Nat), i < l.length → ∀ (d : α) (e : β),
      (l.map f).getD i e = f (l.getD i d) := by
  intro l
  induction l with
  | nil => intro i h; simp at h
  | cons x xs ih =>
    intro i h d e
    cases i with
    | zero => simp
    | succ n =>
      simp only [List.map_cons, List.getD_cons_succ]
      exact ih n (by simpa using h) d e

theorem getD_dropLast_of_lt {α : Type} :
    ∀ (l : List α) (i : Nat), i < l.length - 1 → ∀ d : α,
      l.dropLast.getD i d = l.getD i d := by
  intro l
  induction l with
  | nil => intro i h; simp at h
  | cons x xs ih =>
    intro i h d
    cases xs with
    | nil => simp at h
    | cons y ys =>
      cases i with
      | zero => simp [List.dropLast]
      | succ n =>
        have hn : n < (y :: ys).length - 1 := by
          simp only [List.length_cons] at h ⊢
          omega
        simp only [List.dropLast_cons₂, List.getD_cons_succ]
        exact ih n hn d

theorem getD_append_of_lt {α : Type} :
    ∀ (l₁ l₂ : List α) (i : Nat), i < l₁.length → ∀ d : α,
      (l₁ ++ l₂).getD i d = l₁.getD i d := by
  intro l₁
  induction l₁ with
  | nil => intro l₂ i h; simp at h
  | cons x xs ih =>
    intro l₂ i h d
    cases i with
    | zero => simp
    | succ n =>
      simp only [List.cons_append, List.getD_cons_succ]
      exact ih l₂ n (by simpa using h) d

theorem getD_append_length {α : Type} :
    ∀ (l₁ l₂ : List α) (d : α), (l₁ ++ l₂).getD l₁.length d = l₂.getD 0 d := by
  intro l₁
  induction l₁ with
  | nil => intro l₂ d; rfl
  | cons x xs ih => intro l₂ d; simpa using ih l₂ d

theorem getD_length_le_sum :
    ∀ (l : List (List Nat)) (i : Nat),
      (l.getD i []).length ≤ (l.map List.length).sum := by
  intro l
  induction l with
  | nil => intro i; simp
  | cons x xs ih =>
    intro i
    cases i with
    | zero => simp
    | succ n =>
      simp only [List.getD_cons_succ, List.map_cons, List.sum_cons]
      exact le_trans (ih n) (Nat.le_add_left _ _)

theorem dedup_const :
    ∀ (l : List Int) (c : Int), (∀ a ∈ l, a = c) → l ≠ [] → l.dedup = [c] := by
  intro l
  induction l with
  | nil => intro c _ h; exact absurd rfl h
  | cons x xs ih =>
    intro c hall _
    have hx : x = c := hall x (List.mem_cons_self _ _)
    cases xs with
    | nil => simp [hx]
    | cons y ys =>
      have hxs : (y :: ys).dedup = [c] :=
        ih c (fun a ha => hall a (List.mem_cons_of_mem _ ha)) (by simp)
      have hmem : x ∈ y :: ys := by
        rw [hx]
        have : y = c := hall y (by simp)
        rw [← this]
        exact List.mem_cons_self _ _
      rw [List.dedup_cons_of_mem hmem, hxs]

theorem groupByKey_const {α : Type} (key : α → Int) (xs : List α)
    (hall : ∀ x ∈ xs, key x = 0) (hne : xs ≠ []) : groupByKey key xs = [xs] := by
  have hkeys : sortedKeys (xs.map key) = [0] := by
    rw [sortedKeys, dedup_const]
    · rfl
    · intro a ha
      obtain ⟨x, hx, rfl⟩ := List.mem_map.1 ha
      exact hall x hx
    · simpa using hne
  rw [groupByKey, hkeys]
  simp only [List.map_cons, List.map_nil]
  congr 1
  apply List.filter_eq_self.2
  intro x hx
  simp [hall x hx]

/-! ### Exact-allocation lemmas (no `min` truncation) -/

theorem drawAll_exact :
    ∀ (counts : List Int) (rng : Nat) (indices : List Nat), indices.Nodup →
      (∀ c ∈ counts, 0 ≤ c) →
      (∀ k, ((counts.take k).map Int.toNat).sum ≤ indices.length) →
      ∃ news rem rng', drawAll rng indices counts = .ok (news, rem, rng') ∧
        news.length = counts.length ∧
        (∀ i, i < counts.length → (news.getD i []).length = (counts.getD i 0).toNat) ∧
        rem.length = indices.length - (counts.map Int.toNat).sum ∧
        List.Perm (news.flatten ++ rem) indices := by
  intro counts
  induction counts with
  | nil =>
    intro rng indices _ _ _
    exact ⟨[], indices, rng, rfl, rfl, fun i hi => by simp at hi, by simp, by simp⟩
  | cons c cs ih =>
    intro rng indices hnd hpos hpre
    have hc : 0 ≤ c := hpos c (List.mem_cons_self _ _)
    have hc_le : c.toNat ≤ indices.length := by simpa using hpre 1
    have hmin : min (indices.length : Int) c = c := by omega
    have hsampE : sampleE rng indices (min (indices.length : Int) c)
        = .ok (sampleList rng indices c.toNat) := by
      rw [hmin]
      exact sampleE_ok hc (by omega)
    set chosen := (sampleList rng indices c.toNat).1 with hchdef
    have hchlen : chosen.length = c.toNat := sampleList_length _ _ _ hc_le
    have hchnd : chosen.Nodup := sampleList_nodup _ _ _ hnd
    have hchsub : ∀ x ∈ chosen, x ∈ indices := fun x hx => sampleList_subset _ _ _ x hx
    set pool := indices.filter fun i => decide (i ∉ chosen) with hpooldef
    have hpoolperm := filter_not_mem_perm hnd hchnd hchsub
    have hpoollen : pool.length = indices.length - c.toNat := by
      have hl := hpoolperm.length_eq
      rw [List.length_append, hchlen] at hl
      rw [hpooldef]
      omega
    have hpre2 : ∀ k, ((cs.take k).map Int.toNat).sum ≤ pool.length := by
      intro k
      have hk := hpre (k + 1)
      simp only [List.take_succ_cons, List.map_cons, List.sum_cons] at hk
      rw [hpoollen]
      omega
    obtain ⟨news, rem, rng', heq, hlen, hgetD, hrem, hperm⟩ :=
      ih (sampleList rng indices c.toNat).2 pool (hnd.filter _)
        (fun a ha => hpos a (List.mem_cons_of_mem _ ha)) hpre2
    refine ⟨chosen :: news, rem, rng', ?_, by simp [hlen], ?_, ?_, ?_⟩
    · simp only [drawAll, hsampE, heq]
    · intro i hi
      cases i with
      | zero => simpa using hchlen
      | succ n => simpa using hgetD n (by simpa using hi)
    · rw [hrem, hpoollen]
      simp only [List.map_cons, List.sum_cons]
      omega
    · simp only [List.flatten_cons, List.append_assoc]
      exact (List.Perm.append_left chosen hperm).trans hpoolperm

theorem floorCounts_take_le (ps : List ℚ) (X : Nat)
    (hps : ∀ p ∈ ps, 0 ≤ p) (hsum : ps.sum = 1) :
    ∀ k, ((((ps.dropLast.map fun s => s * (X : ℚ)).map fun c => ⌊c⌋).take k).map
      Int.toNat).sum ≤ X := by
  intro k
  have hcollapse :
      (((ps.dropLast.map fun s => s * (X : ℚ)).map fun c => ⌊c⌋).take k).map Int.toNat
        = (ps.dropLast.take k).map fun p => (⌊p * (X : ℚ)⌋).toNat := by
    rw [List.map_map, ← List.map_take, List.map_map]
    rfl
  rw [hcollapse]
  set q := ps.dropLast.take k with hq
  have hqsub : List.Sublist q ps := (List.take_sublist _ _).trans (List.dropLast_sublist ps)
  have hqsum : q.sum ≤ 1 := by
    rw [← hsum]
    exact List.Sublist.sum_le_sum hqsub hps
  have hqnonneg : ∀ p ∈ q, 0 ≤ p := fun p hp => hps p (hqsub.subset hp)
  have hcast : (((q.map fun p => (⌊p * (X : ℚ)⌋).toNat).sum : Nat) : ℚ) ≤ (X : ℚ) := by
    rw [Nat.cast_list_sum, List.map_map]
    have hpt : ∀ p ∈ q, ((Nat.cast ∘ fun p => (⌊p * (X : ℚ)⌋).toNat) p : ℚ) ≤ p * X := by
      intro p hp
      have h0 : 0 ≤ p * (X : ℚ) := mul_nonneg (hqnonneg p hp) (Nat.cast_nonneg X)
      have hfl0 : 0 ≤ ⌊p * (X : ℚ)⌋ := Int.floor_nonneg.2 h0
      have hcast2 : ((⌊p * (X : ℚ)⌋.toNat : Nat) : ℚ) = ((⌊p * (X : ℚ)⌋ : Int) : ℚ) := by
        rw [← Int.toNat_of_nonneg hfl0]
        push_cast
        rw [Int.toNat_of_nonneg hfl0]
      show ((⌊p * (X : ℚ)⌋.toNat : Nat) : ℚ) ≤ p * X
      rw [hcast2]
      exact Int.floor_le _
    calc ((q.map (Nat.cast ∘ fun p => (⌊p * (X : ℚ)⌋).toNat)).sum : ℚ)
        ≤ (q.map fun p => p * (X : ℚ)).sum := List.sum_le_sum hpt
      _ = q.sum * X := by simp [List.sum_map_mul_right]
      _ ≤ 1 * X := mul_le_mul_of_nonneg_right hqsum (Nat.cast_nonneg X)
      _ = X := one_mul _
  exact_mod_cast hcast

/-! ### Success-implies lemmas and loop invariants -/

theorem zip_labels_map_idx (g : List Row) (labels : List Int)
    (hlen : labels.length = g.length) :
    (g.zip labels).map (fun p : Row × Int => p.1.idx) = g.map Row.idx := by
  have h1 : (g.zip labels).map (fun p : Row × Int => p.1.idx)
      = ((g.zip labels).map Prod.fst).map Row.idx := by
    rw [List.map_map]
    rfl
  rw [h1, List.map_fst_zip g labels (by rw [hlen])]

theorem classStrata_ok_sublist (sg : Bool) (cluster : List Row → List Int)
    (g : List Row) (L : List (List Nat)) (h : classStrata sg cluster g = .ok L) :
    ∀ s ∈ L, List.Sublist s (g.map Row.idx) := by
  by_cases hlen : (if sg then cluster g else List.replicate g.length 0).length = g.length
  · have heq : classStrata sg cluster g
        = .ok ((groupByKey Prod.snd
            (g.zip (if sg then cluster g else List.replicate g.length 0))).map
              fun sub => sub.map fun p => p.1.idx) := by
      simp only [classStrata]
      rw [if_pos hlen]
    rw [heq] at h
    cases h
    intro s hs
    obtain ⟨sub, hsubmem, rfl⟩ := List.mem_map.1 hs
    have hsub := groupByKey_sublist _ _ sub hsubmem
    have hmt := hsub.map fun p : Row × Int => p.1.idx
    rw [zip_labels_map_idx g _ hlen] at hmt
    exact hmt
  · have herr : classStrata sg cluster g = .error lengthErrMsg := by
      simp only [classStrata]
      rw [if_neg hlen]
    rw [herr] at h
    cases h

theorem strataOf_ok_strata_nodup (sg : Bool) (cluster : List Row → List Int) :
    ∀ (groups : List (List Row)) (L : List (List Nat)),
      strataOf sg cluster groups = .ok L →
      (∀ g ∈ groups, (g.map Row.idx).Nodup) →
      ∀ s ∈ L, s.Nodup := by
  intro groups
  induction groups with
  | nil =>
    intro L h _
    cases h
    simp
  | cons g gs ih =>
    intro L h hgnd
    cases hcs : classStrata sg cluster g with
    | error e =>
      simp only [strataOf, hcs] at h
      exact Except.noConfusion h
    | ok L1 =>
      cases hrest : strataOf sg cluster gs with
      | error e =>
        simp only [strataOf, hcs, hrest] at h
        exact Except.noConfusion h
      | ok L2 =>
        simp only [strataOf, hcs, hrest] at h
        cases h
        intro s hs
        rcases List.mem_append.1 hs with h1 | h2
        · exact (hgnd g (List.mem_cons_self _ _)).sublist
            (classStrata_ok_sublist sg cluster g L1 hcs s h1)
        · exact ih L2 hrest (fun g' hg' => hgnd g' (List.mem_cons_of_mem _ hg')) s h2

theorem runStrata_take_invariant (ps : List ℚ) (hpos : 0 < ps.length)
    (hps : ∀ p ∈ ps, 0 ≤ p) :
    ∀ (strataL : List (List Nat)), (∀ s ∈ strataL, s.Nodup) →
      ∀ (st : LoopState), st.splits.length = ps.length →
        st.total = (st.splits.map List.length).sum →
        ∀ (k : Nat) (st' : LoopState),
          runStrata ps st (strataL.take k) = .ok st' →
          st'.splits.length = ps.length ∧
            st'.total = (st'.splits.map List.length).sum := by
  intro strataL
  induction strataL with
  | nil =>
    intro _ st hlen hinv k st' heq
    simp only [List.take_nil, runStrata] at heq
    cases heq
    exact ⟨hlen, hinv⟩
  | cons s rest ih =>
    intro hnd st hlen hinv k st' heq
    cases k with
    | zero =>
      simp only [List.take_zero, runStrata] at heq
      cases heq
      exact ⟨hlen, hinv⟩
    | succ n =>
      obtain ⟨st1, heq1, hlen1, htot1, hperm1⟩ :=
        processStratum_spec ps st s hlen hpos (hnd s (List.mem_cons_self _ _)) hps
      simp only [List.take_succ_cons, runStrata, heq1] at heq
      have hinv1 : st1.total = (st1.splits.map List.length).sum := by
        have h2 : (st1.splits.map List.length).sum
            = (st.splits.map List.length).sum + s.length := by
          rw [← List.length_flatten, hperm1.length_eq, List.length_append,
            List.length_flatten]
        rw [htot1, hinv, h2]
      exact ih (fun t ht => hnd t (List.mem_cons_of_mem _ ht)) st1 hlen1 hinv1 n st' heq

theorem splits_of_empty_df (ps : List ℚ) (cg sg : Bool)
    (cluster : List Row → List Int) (rng : Nat) (hsum : ps.sum = 1) :
    stratified_splits [] ps cg sg cluster rng = .ok (List.replicate ps.length []) := by
  rw [stratified_splits, if_pos hsum]
  have hdf2 : (if cg then ([] : List Row)
      else List.map (fun r : Row => { r with klass := 0 }) ([] : List Row)) = [] := by
    cases cg <;> rfl
  rw [hdf2]
  have h1 : groupByKey Row.klass ([] : List Row) = [] := rfl
  simp only [splitCore, h1, strataOf, runStrata, List.map_replicate, List.sum_replicate,
    List.length_nil, smul_eq_mul, mul_zero, if_pos]

/-! ### Single-stratum lemmas -/

theorem getD_replicate_nil :
    ∀ (n i : Nat), (List.replicate n ([] : List Nat)).getD i [] = [] := by
  intro n
  induction n with
  | zero => intro i; cases i <;> rfl
  | succ m ih =>
    intro i
    cases i with
    | zero => rfl
    | succ j => simpa [List.replicate_succ] using ih j

theorem strataOf_single (df : List Row) (cluster : List Row → List Int)
    (hne : df ≠ []) :
    strataOf false cluster
        (groupByKey Row.klass (df.map fun r : Row => { r with klass := 0 }))
      = .ok [df.map Row.idx] := by
  set df2 := df.map fun r : Row => { r with klass := 0 } with hdf2def
  have hne2 : df2 ≠ [] := by
    rw [hdf2def]
    simpa using hne
  have hall : ∀ x ∈ df2, Row.klass x = 0 := by
    intro x hx
    rw [hdf2def] at hx
    obtain ⟨r, _, rfl⟩ := List.mem_map.1 hx
    rfl
  rw [groupByKey_const Row.klass df2 hall hne2]
  have hlab : (List.replicate df2.length (0 : Int)).length = df2.length := by simp
  have hclass_def : classStrata false cluster df2
      = if (List.replicate df2.length (0 : Int)).length = df2.length
        then .ok ((groupByKey Prod.snd (df2.zip (List.replicate df2.length 0))).map
            fun sub => sub.map fun p => p.1.idx)
        else .error lengthErrMsg := rfl
  have hclass : classStrata false cluster df2
      = .ok ((groupByKey Prod.snd (df2.zip (List.replicate df2.length 0))).map
          fun sub => sub.map fun p => p.1.idx) := by
    rw [hclass_def, if_pos hlab]
  have hzip_all : ∀ p ∈ df2.zip (List.replicate df2.length (0 : Int)), Prod.snd p = 0 := by
    intro p hp
    exact List.eq_of_mem_replicate (List.of_mem_zip hp).2
  have hzipne : df2.zip (List.replicate df2.length (0 : Int)) ≠ [] := by
    have hl : (df2.zip (List.replicate df2.length (0 : Int))).length = df2.length := by
      simp [List.length_zip]
    intro hcon
    rw [hcon] at hl
    exact hne2 (List.eq_nil_of_length_eq_zero hl.symm)
  have hzipgroup := groupByKey_const Prod.snd _ hzip_all hzipne
  have hfinal : classStrata false cluster df2 = .ok [df.map Row.idx] := by
    rw [hclass, hzipgroup]
    simp only [List.map_cons, List.map_nil]
    congr 2
    rw [zip_labels_map_idx df2 _ hlab, hdf2def, List.map_map]
    rfl
  simp only [strataOf, hfinal, List.append_nil]

theorem single_stratum_run (df : List Row) (ps : List ℚ)
    (cluster : List Row → List Int) (rng : Nat)
    (hsum : ps.sum = 1) (hps : ∀ p ∈ ps, 0 ≤ p) (hnd : (df.map Row.idx).Nodup)
    (hne : df ≠ []) :
    ∃ (news : List (List Nat)) (rem : List Nat),
      stratified_splits df ps false false cluster rng = .ok (news ++ [rem]) ∧
      news.length = ps.length - 1 ∧
      (∀ i, i < ps.length - 1 →
        (news.getD i []).length = (⌊ps.getD i 0 * (df.length : ℚ)⌋).toNat) ∧
      rem.length = df.length
        - (ps.dropLast.map fun p => (⌊p * (df.length : ℚ)⌋).toNat).sum := by
  have hpos : 0 < ps.length := by
    rcases ps with _ | _
    · norm_num at hsum
    · simp
  have hX : (df.map Row.idx).length = df.length := List.length_map df Row.idx
  have hcounts_eq : computeCounts ps (df.map Row.idx).length (List.replicate ps.length []) 0
      = (ps.dropLast.map fun s => s * (((df.map Row.idx).length : Nat) : ℚ)).map
          fun c => ⌊c⌋ := by
    rw [computeCounts, if_neg (by omega)]
  have hcnonneg := computeCounts_nonneg ps (df.map Row.idx).length
    (List.replicate ps.length []) 0 hps
  have hpre : ∀ k,
      (((computeCounts ps (df.map Row.idx).length
        (List.replicate ps.length []) 0).take k).map Int.toNat).sum
        ≤ (df.map Row.idx).length := by
    intro k
    rw [hcounts_eq]
    exact floorCounts_take_le ps _ hps hsum k
  obtain ⟨news, rem, rng', heqD, hlen, hgetD, hrem, hperm⟩ :=
    drawAll_exact
      (computeCounts ps (df.map Row.idx).length (List.replicate ps.length []) 0)
      rng (df.map Row.idx) hnd hcnonneg hpre
  have hlen2 : news.length = ps.length - 1 := by
    rw [hlen, computeCounts_length]
  have hproc : processStratum ps ⟨List.replicate ps.length [], 0, rng⟩ (df.map Row.idx)
      = .ok ⟨extendLast (extendFirst (List.replicate ps.length []) news) rem,
          0 + (df.map Row.idx).length, rng'⟩ := by
    simp only [processStratum, heqD]
  have hsplits_eq : extendLast (extendFirst (List.replicate ps.length []) news) rem
      = news ++ [rem] := by
    rw [extendFirst_replicate news ps.length (by omega)]
    have h1 : ps.length - news.length = 1 := by omega
    rw [h1]
    have h2 : List.replicate 1 ([] : List Nat) = [[]] := rfl
    rw [h2, extendLast_append_singleton, List.nil_append]
  have hrun : runStrata ps ⟨List.replicate ps.length [], 0, rng⟩ [df.map Row.idx]
      = .ok ⟨news ++ [rem], 0 + (df.map Row.idx).length, rng'⟩ := by
    rw [show (⟨news ++ [rem], 0 + (df.map Row.idx).length, rng'⟩ : LoopState)
        = ⟨extendLast (extendFirst (List.replicate ps.length []) news) rem,
            0 + (df.map Row.idx).length, rng'⟩ from by rw [hsplits_eq]]
    simp only [runStrata, hproc]
  have hflatlen : ((news ++ [rem]).map List.length).sum = df.length := by
    rw [← List.length_flatten]
    have hfl : (news ++ [rem]).flatten = news.flatten ++ rem := by simp
    rw [hfl, hperm.length_eq, hX]
  refine ⟨news, rem, ?_, hlen2, ?_, ?_⟩
  · rw [stratified_splits, if_pos hsum]
    have hite : (if false then df else df.map fun r : Row => { r with klass := 0 })
        = df.map fun r : Row => { r with klass := 0 } := rfl
    rw [hite]
    have hcond : ((news ++ [rem]).map List.length).sum
        = (df.map fun r : Row => { r with klass := 0 }).length := by
      rw [hflatlen, List.length_map]
    simp only [splitCore, strataOf_single df cluster hne, hrun]
    rw [if_pos hcond]
  · intro i hi
    rw [hgetD i (by rw [computeCounts_length]; omega)]
    rw [hcounts_eq]
    have hdl : i < ps.dropLast.length := by
      rw [List.length_dropLast]
      omega
    rw [getD_map_of_lt (fun c => ⌊c⌋) _ i (by simpa using hdl) (0 : ℚ)]
    rw [getD_map_of_lt (fun s => s * (((df.map Row.idx).length : Nat) : ℚ))
      ps.dropLast i hdl (0 : ℚ)]
    rw [getD_dropLast_of_lt ps i (by omega) (0 : ℚ), hX]
  · rw [hrem, hcounts_eq, List.map_map, List.map_map, hX]
    rfl

/-! ### Claim theorems -/

/-- C1: for every dataset with distinct record indices and every nonnegative
split-percentage list summing to 1 (the clustering collaborator returning one
label per row, as `DBSCAN` does), `stratified_splits` returns one index list
per percentage; the union of the returned lists contains exactly `M` elements,
no index appears twice (within one list or across lists), and every record
index of the input appears in exactly one list. -/
theorem stratified_splits_complete_disjoint (df : List Row) (ps : List ℚ)
    (cg sg : Bool) (cluster : List Row → List Int) (rng : Nat)
    (hsum : ps.sum = 1) (hps : ∀ p ∈ ps, 0 ≤ p)
    (hnd : (df.map Row.idx).Nodup) (hcl : ∀ g', (cluster g').length = g'.length) :
    ∃ splits, stratified_splits df ps cg sg cluster rng = .ok splits ∧
      splits.length = ps.length ∧
      splits.flatten.length = df.length ∧
      splits.flatten.Nodup ∧
      ∀ i ∈ df.map Row.idx, splits.flatten.count i = 1 := by
  obtain ⟨splits, heq, hlen, hperm⟩ :=
    stratified_splits_ok df ps cg sg cluster rng hsum hps hnd hcl
  have hnd2 : splits.flatten.Nodup := hperm.nodup_iff.2 hnd
  refine ⟨splits, heq, hlen, ?_, hnd2, ?_⟩
  · rw [hperm.length_eq, List.length_map]
  · intro i hi
    exact List.count_eq_one_of_mem hnd2 (hperm.mem_iff.2 hi)

theorem stratified_splits_complete_disjoint_witness :
    stratified_splits (mkdf 4) [1/2, 1/2] false false clusterConst 1
      = .ok [[1, 0], [2, 3]] ∧
    ([[1, 0], [2, 3]] : List (List Nat)).flatten.Nodup ∧
    ([[1, 0], [2, 3]] : List (List Nat)).flatten.length = (mkdf 4).length ∧
    ([[1, 0], [2, 3]] : List (List Nat)).flatten.count 2 = 1 := by
  obtain ⟨splits, heq, hlen, hflen, hnd2, hcount⟩ :=
    stratified_splits_complete_disjoint (mkdf 4) [1/2, 1/2] false false clusterConst 1
      (by with_unfolding_all decide) (by with_unfolding_all decide)
      (by with_unfolding_all decide) (fun g' => by simp [clusterConst])
  have heval : stratified_splits (mkdf 4) [1/2, 1/2] false false clusterConst 1
      = .ok [[1, 0], [2, 3]] := by with_unfolding_all rfl
  have h2 : Except.ok (ε := String) splits = .ok [[1, 0], [2, 3]] :=
    heq.symm.trans heval
  injection h2 with h3
  subst h3
  exact ⟨heval, hnd2, hflen, hcount 2 (by with_unfolding_all decide)⟩

/-- C2: the requested count for a non-remainder split `i` on a stratum of size
`X` is `floor(p_i * X)` when the cumulative processed total `T` is zero;
when `T > 0` it is `ceil(p_i * X)` exactly when the split's running share
`len(splits[i]) / T` is strictly below `p_i`, and `floor(p_i * X)` otherwise. -/
theorem computeCounts_spec (ps : List ℚ) (X : Nat) (splits : List (List Nat))
    (total : Nat) (i : Nat) (hi : i < ps.length - 1) :
    (computeCounts ps X splits total).getD i 0
      = if total = 0 then ⌊ps.getD i 0 * (X : ℚ)⌋
        else if ((splits.getD i []).length : ℚ) / (total : ℚ) < ps.getD i 0
          then ⌈ps.getD i 0 * (X : ℚ)⌉ else ⌊ps.getD i 0 * (X : ℚ)⌋ := by
  have hdl : i < ps.dropLast.length := by
    rw [List.length_dropLast]
    omega
  have hraw : (ps.dropLast.map fun s => s * (X : ℚ)).getD i 0
      = ps.getD i 0 * (X : ℚ) := by
    rw [getD_map_of_lt (fun s => s * (X : ℚ)) ps.dropLast i hdl (0 : ℚ),
      getD_dropLast_of_lt ps i (by omega) (0 : ℚ)]
  rw [computeCounts]
  by_cases h : total = 0
  · rw [if_neg (by omega), if_pos h]
    rw [getD_map_of_lt (fun c => ⌊c⌋) _ i (by simpa using hdl) (0 : ℚ), hraw]
  · rw [if_pos (by omega), if_neg h]
    rw [correctedCounts_getD ps splits total _ 0 i (by simpa using hdl)]
    simp only [Nat.zero_add]
    rw [hraw]

theorem computeCounts_spec_witness :
    (computeCounts [1/2, 1/2] 5 [[1], [2, 3]] 3).getD 0 0 = 3 := by
  rw [computeCounts_spec [1/2, 1/2] 5 [[1], [2, 3]] 3 0 (by decide)]
  with_unfolding_all decide

/-- C3 counterexample: the percentage list `[1/2, 1/2 + 1e-10]` sums to a value
within the claimed 1e-9 tolerance of 1 yet is rejected by the entry assertion,
because line 35 compares the sum with 1 exactly — the claim's "within tolerance
is accepted" half does not hold on the code. -/
theorem tolerance_not_honored :
    |([(1 : ℚ)/2, 1/2 + 1/10000000000]).sum - 1| ≤ 1/1000000000 ∧
    ([(1 : ℚ)/2, 1/2 + 1/10000000000]).sum ≠ 1 ∧
    stratified_splits (mkdf 3) [1/2, 1/2 + 1/10000000000] false false clusterConst 7
      = .error entryMsg :=
  ⟨by with_unfolding_all decide, by with_unfolding_all decide,
    by with_unfolding_all rfl⟩

/-- C3 (amended): the entry assertion compares the percentage sum with 1
exactly, with no tolerance: whenever the sum differs from 1 — by any nonzero
amount, even one within 1e-9 — the call fails as a fatal precondition violation
before any sampling occurs and returns no partial result. -/
theorem entry_assert_exact (df : List Row) (ps : List ℚ) (cg sg : Bool)
    (cluster : List Row → List Int) (rng : Nat) (h : ps.sum ≠ 1) :
    stratified_splits df ps cg sg cluster rng = .error entryMsg := by
  rw [stratified_splits, if_neg h]

theorem entry_assert_exact_witness :
    stratified_splits (mkdf 3) [1/2, 3/5] false false clusterConst 7
      = .error entryMsg :=
  entry_assert_exact (mkdf 3) [1/2, 3/5] false false clusterConst 7
    (by with_unfolding_all decide)

/-- C4 counterexample: an empty dataset is not rejected: with percentages
`[1]` the call returns one empty index list instead of failing with a
precondition-violation error. -/
theorem empty_df_accepted :
    stratified_splits [] [1] false false clusterConst 7 = .ok [[]] := by
  with_unfolding_all rfl

/-- C4 (amended): an empty dataset is accepted, not rejected: whenever the
percentages pass the entry assertion, the call on an empty dataset succeeds
and returns one empty index list per percentage (the strata loop runs zero
times and the completeness assertion holds trivially). -/
theorem empty_df_returns_empty_splits (ps : List ℚ) (cg sg : Bool)
    (cluster : List Row → List Int) (rng : Nat) (hsum : ps.sum = 1) :
    stratified_splits [] ps cg sg cluster rng = .ok (List.replicate ps.length []) :=
  splits_of_empty_df ps cg sg cluster rng hsum

theorem empty_df_returns_empty_splits_witness :
    stratified_splits [] [(1 : ℚ)/4, 3/4] true true clusterConst 5
      = .ok (List.replicate ([(1 : ℚ)/4, 3/4]).length []) :=
  empty_df_returns_empty_splits [(1 : ℚ)/4, 3/4] true true clusterConst 5
    (by with_unfolding_all decide)

/-- C5: with no class column and no stratification columns the whole dataset
is one stratum: every non-remainder split receives exactly
`floor(percentage_i * M)` records and the last split receives the remaining
`M` minus the sum of those floors. -/
theorem single_stratum_sizes (df : List Row) (ps : List ℚ)
    (cluster : List Row → List Int) (rng : Nat)
    (hsum : ps.sum = 1) (hps : ∀ p ∈ ps, 0 ≤ p) (hnd : (df.map Row.idx).Nodup) :
    ∃ splits, stratified_splits df ps false false cluster rng = .ok splits ∧
      (∀ i, i < ps.length - 1 →
        (splits.getD i []).length = (⌊ps.getD i 0 * (df.length : ℚ)⌋).toNat) ∧
      (splits.getD (ps.length - 1) []).length
        = df.length - (ps.dropLast.map fun p => (⌊p * (df.length : ℚ)⌋).toNat).sum := by
  by_cases hne : df = []
  · subst hne
    refine ⟨List.replicate ps.length [],
      splits_of_empty_df ps false false cluster rng hsum, ?_, ?_⟩
    · intro i _
      rw [getD_replicate_nil]
      simp
    · rw [getD_replicate_nil]
      simp
  · obtain ⟨news, rem, heq, hlen2, hgetD, hrem⟩ :=
      single_stratum_run df ps cluster rng hsum hps hnd hne
    refine ⟨news ++ [rem], heq, ?_, ?_⟩
    · intro i hi
      rw [getD_append_of_lt news [rem] i (by omega) []]
      exact hgetD i hi
    · rw [← hlen2, getD_append_length]
      exact hrem

theorem single_stratum_sizes_witness :
    stratified_splits (mkdf 10) [4/5, 1/5] false false clusterConst 7
      = .ok [[7, 0, 6, 9, 4, 1, 3, 2], [5, 8]] ∧
    ([7, 0, 6, 9, 4, 1, 3, 2] : List Nat).length = 8 ∧
    ([5, 8] : List Nat).length = 2 := by
  obtain ⟨splits, heq, hi, hlast⟩ :=
    single_stratum_sizes (mkdf 10) [4/5, 1/5] clusterConst 7
      (by with_unfolding_all decide) (by with_unfolding_all decide)
      (by with_unfolding_all decide)
  have heval : stratified_splits (mkdf 10) [4/5, 1/5] false false clusterConst 7
      = .ok [[7, 0, 6, 9, 4, 1, 3, 2], [5, 8]] := by with_unfolding_all rfl
  have h2 : Except.ok (ε := String) splits = .ok [[7, 0, 6, 9, 4, 1, 3, 2], [5, 8]] :=
    heq.symm.trans heval
  injection h2 with h3
  subst h3
  exact ⟨heval, by decide, by decide⟩

/-- C6: with nonnegative requested counts (as produced for nonnegative
percentages) and a duplicate-free pool, the per-stratum drawing loop never
fails — the sampler's error branch for a negative or too-large `k` is
unreachable thanks to the `min` — each non-remainder split draws exactly
`min(remaining pool size, requested count)` indices, the drawn indices leave
the pool before the next split draws, and the drawn lists plus the final pool
(what the last split receives) are a permutation of the stratum. -/
theorem drawAll_safe (rng : Nat) (indices : List Nat) (counts : List Int)
    (hnd : indices.Nodup) (hc : ∀ c ∈ counts, 0 ≤ c) :
    ∃ news rem rng', drawAll rng indices counts = .ok (news, rem, rng') ∧
      news.length = counts.length ∧
      List.Perm (news.flatten ++ rem) indices ∧
      ∀ i, i < counts.length →
        (news.getD i []).length
          = min ((indices.diff (news.take i).flatten).length)
              ((counts.getD i 0).toNat) :=
  drawAll_spec counts rng indices hnd hc

theorem drawAll_safe_witness :
    drawAll 3 [10, 11, 12] [2, 5] = .ok ([[10, 11], [12]], [], 679304702) ∧
    (([[10, 11], [12]] : List (List Nat)).getD 0 []).length
      = min (([10, 11, 12] : List Nat).length) ((2 : Int).toNat) ∧
    (([[10, 11], [12]] : List (List Nat)).getD 1 []).length
      = min ((([10, 11, 12] : List Nat).diff [10, 11]).length) ((5 : Int).toNat) := by
  obtain ⟨news, rem, rng', heq, hlen, hperm, hmin⟩ :=
    drawAll_safe 3 [10, 11, 12] [2, 5] (by decide) (by decide)
  have heval : drawAll 3 [10, 11, 12] [2, 5]
      = .ok ([[10, 11], [12]], [], 679304702) := by with_unfolding_all rfl
  have h2 : Except.ok (ε := String) (news, rem, rng')
      = .ok (([[10, 11], [12]] : List (List Nat)), ([] : List Nat), 679304702) :=
    heq.symm.trans heval
  injection h2 with h3
  injection h3 with h4 h5
  injection h5 with h6 h7
  subst h4 h6 h7
  refine ⟨heval, ?_, ?_⟩
  · have := hmin 0 (by decide)
    simpa using this
  · have := hmin 1 (by decide)
    simpa using this

/-- C7 counterexample: one class of 19 records with percentages
`[1/10, 9/10]`: without stratification columns the first split receives
`floor(1.9) = 1` record, but when the clustering collaborator partitions the
class into sub-clusters of 5 and 14 records the first split receives
`floor(0.5) = 0` then `ceil(1.4) = 2` records — the split sizes change. -/
theorem stratify_changes_sizes :
    (stratified_splits (mkdf 19) [1/10, 9/10] true true clusterBelow5 7).map
        (fun l => l.map List.length) = .ok [2, 17] ∧
    (stratified_splits (mkdf 19) [1/10, 9/10] true false clusterBelow5 7).map
        (fun l => l.map List.length) = .ok [1, 18] ∧
    ([2, 17] : List Nat) ≠ [1, 18] :=
  ⟨by with_unfolding_all rfl, by with_unfolding_all rfl, by decide⟩

/-- C7 (amended): supplying stratify_columns may change the individual split
sizes; what is preserved is the partition itself: both calls succeed, each
returns one index list per percentage, each assigns exactly the record indices
of the dataset with no duplicate (every record exactly once in both runs), and
hence the two runs assign the same multiset of record indices overall. -/
theorem stratify_preserves_partition (df : List Row) (ps : List ℚ) (cg : Bool)
    (cluster : List Row → List Int) (rng rng2 : Nat)
    (hsum : ps.sum = 1) (hps : ∀ p ∈ ps, 0 ≤ p)
    (hnd : (df.map Row.idx).Nodup) (hcl : ∀ g', (cluster g').length = g'.length) :
    ∃ s1 s2, stratified_splits df ps cg true cluster rng = .ok s1 ∧
      stratified_splits df ps cg false cluster rng2 = .ok s2 ∧
      s1.length = ps.length ∧
      s2.length = ps.length ∧
      List.Perm s1.flatten (df.map Row.idx) ∧
      List.Perm s2.flatten (df.map Row.idx) ∧
      s1.flatten.Nodup ∧
      s2.flatten.Nodup ∧
      List.Perm s1.flatten s2.flatten := by
  obtain ⟨s1, h1, hl1, hp1⟩ :=
    stratified_splits_ok df ps cg true cluster rng hsum hps hnd hcl
  obtain ⟨s2, h2, hl2, hp2⟩ :=
    stratified_splits_ok df ps cg false cluster rng2 hsum hps hnd hcl
  exact ⟨s1, s2, h1, h2, hl1, hl2, hp1, hp2, hp1.nodup_iff.2 hnd, hp2.nodup_iff.2 hnd,
    hp1.trans hp2.symm⟩

theorem stratify_preserves_partition_witness :
    stratified_splits (mkdf 4) [1/2, 1/2] false true clusterConst 2
      = .ok [[2, 1], [0, 3]] ∧
    stratified_splits (mkdf 4) [1/2, 1/2] false false clusterConst 3
      = .ok [[3, 1], [0, 2]] ∧
    ([[2, 1], [0, 3]] : List (List Nat)).length = ([(1 : ℚ)/2, 1/2]).length ∧
    ([[3, 1], [0, 2]] : List (List Nat)).length = ([(1 : ℚ)/2, 1/2]).length ∧
    List.Perm ([[2, 1], [0, 3]] : List (List Nat)).flatten ((mkdf 4).map Row.idx) ∧
    List.Perm ([[3, 1], [0, 2]] : List (List Nat)).flatten ((mkdf 4).map Row.idx) ∧
    ([[2, 1], [0, 3]] : List (List Nat)).flatten.Nodup ∧
    ([[3, 1], [0, 2]] : List (List Nat)).flatten.Nodup ∧
    List.Perm ([[2, 1], [0, 3]] : List (List Nat)).flatten
      ([[3, 1], [0, 2]] : List (List Nat)).flatten := by
  obtain ⟨s1, s2, h1, h2, hl1, hl2, hp1, hp2, hnd1, hnd2, hperm⟩ :=
    stratify_preserves_partition (mkdf 4) [1/2, 1/2] false clusterConst 2 3
      (by with_unfolding_all decide) (by with_unfolding_all decide)
      (by with_unfolding_all decide) (fun g' => by simp [clusterConst])
  have he1 : stratified_splits (mkdf 4) [1/2, 1/2] false true clusterConst 2
      = .ok [[2, 1], [0, 3]] := by with_unfolding_all rfl
  have he2 : stratified_splits (mkdf 4) [1/2, 1/2] false false clusterConst 3
      = .ok [[3, 1], [0, 2]] := by with_unfolding_all rfl
  have hs1 : Except.ok (ε := String) s1 = .ok [[2, 1], [0, 3]] := h1.symm.trans he1
  have hs2 : Except.ok (ε := String) s2 = .ok [[3, 1], [0, 2]] := h2.symm.trans he2
  injection hs1 with hs1'
  injection hs2 with hs2'
  subst hs1' hs2'
  exact ⟨he1, he2, hl1, hl2, hp1, hp2, hnd1, hnd2, hperm⟩

/-- C8: two calls with the same dataset, the same split percentages, the same
class/stratify column configuration, the same clustering collaborator and the
same random seed produce identical split assignments — the computation has no
input beyond those arguments. -/
theorem stratified_splits_deterministic (df1 df2 : List Row) (ps1 ps2 : List ℚ)
    (cg1 cg2 sg1 sg2 : Bool) (cl1 cl2 : List Row → List Int) (r1 r2 : Nat)
    (hdf : df1 = df2) (hps : ps1 = ps2) (hcg : cg1 = cg2) (hsg : sg1 = sg2)
    (hcl : cl1 = cl2) (hr : r1 = r2) :
    stratified_splits df1 ps1 cg1 sg1 cl1 r1
      = stratified_splits df2 ps2 cg2 sg2 cl2 r2 := by
  subst hdf hps hcg hsg hcl hr
  rfl

theorem stratified_splits_deterministic_witness :
    stratified_splits (mkdf 3) [1/2, 1/2] false false clusterConst 9
      = stratified_splits (mkdf 3) [1/2, 1/2] false false clusterConst 9 :=
  stratified_splits_deterministic (mkdf 3) (mkdf 3) [1/2, 1/2] [1/2, 1/2]
    false false false false clusterConst clusterConst 9 9 rfl rfl rfl rfl rfl rfl

/-- C9: the caller's dataframe is unchanged by the call: in the caller-visible
state after the invocation the `caller` component equals the input dataframe
(the entry assertion fires before the copy, and the synthetic class column and
all later writes target only the working copy taken on line 36), while the
returned value agrees with `stratified_splits`. -/
theorem caller_df_unchanged (df : List Row) (ps : List ℚ) (cg sg : Bool)
    (cluster : List Row → List Int) (rng : Nat) :
    (stratified_splitsRun df ps cg sg cluster rng).1.caller = df ∧
    (stratified_splitsRun df ps cg sg cluster rng).2
      = stratified_splits df ps cg sg cluster rng := by
  rw [stratified_splitsRun, stratified_splits]
  by_cases h : ps.sum = 1
  · rw [if_pos h, if_pos h]
    cases cg <;> exact ⟨rfl, rfl⟩
  · rw [if_neg h, if_neg h]
    exact ⟨rfl, rfl⟩

/-- C10: at the start of every stratum's allocation — i.e. after running the
loop on any prefix of the strata list built from the working dataframe — the
cumulative processed count `total` equals the combined length of the split
accumulators, so the running-share expression `len(splits[i]) / total`,
evaluated only under the guard `total > 0`, never divides by zero and always
lies in `[0, 1]`. -/
theorem running_share_invariant (df2 : List Row) (ps : List ℚ) (sg : Bool)
    (cluster : List Row → List Int) (rng : Nat) (strataL : List (List Nat))
    (hsum : ps.sum = 1) (hps : ∀ p ∈ ps, 0 ≤ p)
    (hnd : (df2.map Row.idx).Nodup)
    (hstrata : strataOf sg cluster (groupByKey Row.klass df2) = .ok strataL)
    (k : Nat) (st' : LoopState)
    (hrun : runStrata ps ⟨List.replicate ps.length [], 0, rng⟩ (strataL.take k)
      = .ok st') :
    st'.total = (st'.splits.map List.length).sum ∧
    (0 < st'.total → ∀ i,
      0 ≤ ((st'.splits.getD i []).length : ℚ) / (st'.total : ℚ) ∧
      ((st'.splits.getD i []).length : ℚ) / (st'.total : ℚ) ≤ 1) := by
  have hpos : 0 < ps.length := by
    rcases ps with _ | _
    · norm_num at hsum
    · simp
  have hgnd : ∀ g ∈ groupByKey Row.klass df2, (g.map Row.idx).Nodup := by
    intro g hg
    exact hnd.sublist ((groupByKey_sublist _ _ g hg).map _)
  have hLnd := strataOf_ok_strata_nodup sg cluster _ strataL hstrata hgnd
  obtain ⟨_, hinv⟩ :=
    runStrata_take_invariant ps hpos hps strataL hLnd
      ⟨List.replicate ps.length [], 0, rng⟩ (by simp) (by simp) k st' hrun
  refine ⟨hinv, ?_⟩
  intro htot i
  constructor
  · exact div_nonneg (Nat.cast_nonneg _) (Nat.cast_nonneg _)
  · rw [div_le_one (by exact_mod_cast htot)]
    have hle : (st'.splits.getD i []).length ≤ st'.total := by
      rw [hinv]
      exact getD_length_le_sum _ i
    exact_mod_cast hle

theorem running_share_invariant_witness :
    (2 : Nat) = ([[1], [0]].map List.length).sum ∧
    0 ≤ ((([[1], [0]].getD 0 []).length : Nat) : ℚ) / ((2 : Nat) : ℚ) ∧
    ((([[1], [0]].getD 0 []).length : Nat) : ℚ) / ((2 : Nat) : ℚ) ≤ 1 := by
  have h := running_share_invariant (mkdf 2) [1/2, 1/2] false clusterConst 1 [[0, 1]]
    (by with_unfolding_all decide) (by with_unfolding_all decide)
    (by with_unfolding_all decide) (by with_unfolding_all rfl) 1
    ⟨[[1], [0]], 2, 1103527590⟩ (by with_unfolding_all rfl)
  exact ⟨h.1, (h.2 (by decide) 0).1, (h.2 (by decide) 0).2⟩

end NbSnippets
